import Mathlib

/-!
Verification of `src/raftstore/store/worker/compact.rs`: the background
compaction worker. The worker handles two task kinds: `CompactRaftLog`
(delete a region's raft-log entries below a target index) and
`CompactLockCF` (forward a manual range compaction of the lock column
family to the engine).

The storage engine (RocksDB), the key-encoding helpers
(`keys::raft_log_key` / `keys::raft_log_index`) and the iterator
(`Iterable::seek_cf`) are external collaborators not present in the
repository sources; they are modelled from the spec as noted on each
definition. The worker code itself (`compact_raft_log`,
`compact_lock_cf`, `Runnable::run`) is translated line by line.
-/

namespace Compact

/-- Modelled from the spec: a raft-log key produced by the external
`keys` module. §6 of the spec fixes the contract: "log entries for
region R at index I map to a byte key that sorts ascending by I within
a fixed prefix for R, and is decodable back to I". We model such a key
abstractly as the pair `(region_id, index)`; the fixed per-region
prefixes of the real byte encoding (big-endian region ids) order whole
regions by id, so the byte order is the lexicographic order on pairs. -/
abbrev RaftKey := Nat × Nat

/-- Modelled from the spec: `keys::raft_log_key(region_id, idx)`. -/
def raft_log_key (region_id idx : Nat) : RaftKey := (region_id, idx)

/-- Modelled from the spec: `keys::raft_log_index(key)`, decoding the
log index back out of a key. In the abstract pair model decoding is
total (every `RaftKey` carries its index). -/
def raft_log_index (k : RaftKey) : Nat := k.2

/-- Lexicographic `≤` on raft keys: the byte order of the encoded keys. -/
def keyLe (a b : RaftKey) : Bool :=
  decide (a.1 < b.1 ∨ (a.1 = b.1 ∧ a.2 ≤ b.2))

/-- Lexicographic `<` on raft keys. -/
def keyLt (a b : RaftKey) : Bool :=
  decide (a.1 < b.1 ∨ (a.1 = b.1 ∧ a.2 < b.2))

/-- Fault-injection flags for the fallible external engine calls made by
the worker: `engine.seek_cf`, `rocksdb::get_cf_handle` on `CF_RAFT`,
`WriteBatch::delete_cf`, `engine.write`, and `rocksdb::get_cf_handle`
on `CF_LOCK`. A set flag makes the corresponding call fail. -/
structure Faults where
  seekFail : Bool
  raftHandleFail : Bool
  deleteFail : Bool
  writeFail : Bool
  lockHandleFail : Bool
deriving DecidableEq

/-- The fault configuration in which every engine call succeeds. -/
def noFaults : Faults := ⟨false, false, false, false, false⟩

/-- Modelled from the spec: the shared RocksDB engine (`Arc<DB>`), as
seen by this worker. `raftKeys` is the set of keys present in the raft
column family (values are irrelevant to the worker). `writeLog` records
every committed write batch and `lockCompactLog` every
`compact_range_cf` request on the lock column family, so that "a write
was issued" and "the engine received a compaction request" are
observable. `faults` injects failures of the engine calls. -/
structure Engine where
  raftKeys : List RaftKey
  writeLog : List (List RaftKey)
  lockCompactLog : List (List Nat × List Nat)
  faults : Faults
deriving DecidableEq

/-- The worker's error type: `quick_error! { enum Error { Other(..) } }`
wraps any underlying engine failure. We keep the distinct underlying
causes as constructors so that theorems can name them. -/
inductive CompactError where
  | seek
  | handle
  | delete
  | write
deriving DecidableEq

/-- Modelled from the spec: `engine.seek_cf(cf, start)` — a forward seek
on a column family, returning the smallest key `≥ start` in byte order
(here: lexicographic order on `RaftKey`), or `none` when no key of the
whole column family is `≥ start`. The seek is over the entire column
family; it is not restricted to one region's prefix. -/
def seekCF : List RaftKey → RaftKey → Option RaftKey
  | [], _ => none
  | k :: rest, start =>
    let r := seekCF rest start
    if keyLe start k then
      match r with
      | none => some k
      | some m => if keyLt k m then some k else some m
    else r

/-- Modelled from the spec: `engine.write(wb)` commits a write batch of
deletes atomically. Deleting an absent key is a no-op on the data; the
committed batch is appended to the ghost `writeLog`. -/
def engineWrite (e : Engine) (wb : List RaftKey) : Engine :=
  { e with
    raftKeys := e.raftKeys.filter (fun k => decide (k ∉ wb)),
    writeLog := e.writeLog ++ [wb] }

/-- The write batch built by the loop
`for idx in first_idx..compact_idx { wb.delete_cf(handle, raft_log_key(region_id, idx)) }`
(compact.rs lines 86-89): one delete per index of `[first_idx, compact_idx)`. -/
def compactBatch (region_id first_idx compact_idx : Nat) : List RaftKey :=
  (List.range' first_idx (compact_idx - first_idx)).map
    (fun idx => raft_log_key region_id idx)

/-- The `first_idx` computed at compact.rs lines 75-79: seek from
`raft_log_key(region_id, 0)`; decode the found key's index, or fall back
to `compact_idx` when the seek finds nothing. -/
def firstRetained (e : Engine) (region_id compact_idx : Nat) : Nat :=
  match seekCF e.raftKeys (raft_log_key region_id 0) with
  | some k => raft_log_index k
  | none => compact_idx

/-- `Runner::compact_raft_log` (compact.rs lines 70-93): seek the first
retained index, short-circuit with `Ok(0)` when it is already
`≥ compact_idx`, otherwise build one batch of per-index deletes and
commit it with a single write, returning the count deleted. Each
`box_try!` failure point returns the wrapped error without touching the
engine. -/
def compact_raft_log (e : Engine) (region_id compact_idx : Nat) :
    Engine × Except CompactError Nat :=
  if e.faults.seekFail then (e, Except.error CompactError.seek)
  else if compact_idx ≤ firstRetained e region_id compact_idx then
    (e, Except.ok 0)
  else if e.faults.raftHandleFail then (e, Except.error CompactError.handle)
  else if e.faults.deleteFail then (e, Except.error CompactError.delete)
  else if e.faults.writeFail then (e, Except.error CompactError.write)
  else
    (engineWrite e
      (compactBatch region_id (firstRetained e region_id compact_idx) compact_idx),
     Except.ok (compact_idx - firstRetained e region_id compact_idx))

/-- Modelled from the spec: `engine.compact_range_cf(handle, start, end)`
— the engine's manual range-compaction primitive on the lock column
family. It returns nothing; the request (with the keys exactly as
passed) is appended to the ghost `lockCompactLog`. -/
def compact_range_cf (e : Engine) (start_key end_key : List Nat) : Engine :=
  { e with lockCompactLog := e.lockCompactLog ++ [(start_key, end_key)] }

/-- `Runner::compact_lock_cf` (compact.rs lines 95-103): resolve the
lock column family handle (the only fallible step) and forward the range
to `compact_range_cf`, then return `Ok(())`. -/
def compact_lock_cf (e : Engine) (start_key end_key : List Nat) :
    Engine × Except CompactError Unit :=
  if e.faults.lockHandleFail then (e, Except.error CompactError.handle)
  else (compact_range_cf e start_key end_key, Except.ok ())

/-- `Task` (compact.rs lines 25-36). The `engine: Arc<DB>` field of each
variant is represented by the explicit `Engine` state threaded through
`run`. -/
inductive Task where
  | CompactLockCF (start_key end_key : List Nat)
  | CompactRaftLog (region_id compact_idx : Nat)

/-- `Runnable::run` (compact.rs lines 106-125): pattern-match on the
task variant, invoke the corresponding operation once, log and drop any
error. The return type carries no error: failures never reach the
caller. -/
def run (e : Engine) (t : Task) : Engine :=
  match t with
  | Task.CompactRaftLog region_id compact_idx =>
    (compact_raft_log e region_id compact_idx).1
  | Task.CompactLockCF start_key end_key =>
    (compact_lock_cf e start_key end_key).1

/-! ### Lemmas about the key order -/

theorem keyLe_refl (a : RaftKey) : keyLe a a = true := by
  simp [keyLe]

theorem keyLe_trans {a b c : RaftKey} (h1 : keyLe a b = true)
    (h2 : keyLe b c = true) : keyLe a c = true := by
  simp only [keyLe, decide_eq_true_eq] at h1 h2 ⊢
  omega

theorem keyLe_of_keyLt {a b : RaftKey} (h : keyLt a b = true) :
    keyLe a b = true := by
  simp only [keyLt, keyLe, decide_eq_true_eq] at h ⊢
  omega

theorem keyLe_of_not_keyLt {a b : RaftKey} (h : keyLt a b = false) :
    keyLe b a = true := by
  simp only [keyLt, keyLe, decide_eq_false_iff_not, decide_eq_true_eq] at h ⊢
  omega

theorem keyLe_index_le {m k : RaftKey} (h : keyLe m k = true)
    (h1 : m.1 = k.1) : m.2 ≤ k.2 := by
  simp only [keyLe, decide_eq_true_eq] at h
  omega

theorem keyLe_log_zero {rid : Nat} {k : RaftKey} (h : k.1 = rid) :
    keyLe (raft_log_key rid 0) k = true := by
  simp only [keyLe, raft_log_key, decide_eq_true_eq]
  omega

/-! ### The seek returns the smallest key at or after the start key -/

theorem seekCF_spec (ks : List RaftKey) (s : RaftKey) :
    (seekCF ks s = none → ∀ m ∈ ks, keyLe s m = false) ∧
    (∀ k, seekCF ks s = some k →
      k ∈ ks ∧ keyLe s k = true ∧
      ∀ m ∈ ks, keyLe s m = true → keyLe k m = true) := by
  induction ks with
  | nil =>
    constructor
    · intro _ m hm
      simp at hm
    · intro k hk
      simp [seekCF] at hk
  | cons a t ih =>
    obtain ⟨ihn, ihs⟩ := ih
    cases hle : keyLe s a with
    | false =>
      constructor
      · intro hnone m hm
        have hrec : seekCF t s = none := by
          simpa [seekCF, hle] using hnone
        rcases List.mem_cons.mp hm with rfl | hm
        · exact hle
        · exact ihn hrec m hm
      · intro k hk
        have hrec : seekCF t s = some k := by
          simpa [seekCF, hle] using hk
        obtain ⟨h1, h2, h3⟩ := ihs k hrec
        refine ⟨List.mem_cons_of_mem a h1, h2, ?_⟩
        intro m hm hsm
        rcases List.mem_cons.mp hm with rfl | hm
        · rw [hle] at hsm
          cases hsm
        · exact h3 m hm hsm
    | true =>
      cases hrec : seekCF t s with
      | none =>
        constructor
        · intro hnone
          simp [seekCF, hle, hrec] at hnone
        · intro k hk
          have hk' : a = k := by simpa [seekCF, hle, hrec] using hk
          rw [← hk']
          refine ⟨List.mem_cons_self a t, hle, ?_⟩
          intro m hm hsm
          rcases List.mem_cons.mp hm with rfl | hm
          · exact keyLe_refl _
          · exact absurd hsm (by rw [ihn hrec m hm]; simp)
      | some m0 =>
        obtain ⟨hm0mem, hm0ge, hm0min⟩ := ihs m0 hrec
        cases hlt : keyLt a m0 with
        | true =>
          constructor
          · intro hnone
            simp [seekCF, hle, hrec, hlt] at hnone
          · intro k hk
            have hk' : a = k := by simpa [seekCF, hle, hrec, hlt] using hk
            rw [← hk']
            refine ⟨List.mem_cons_self a t, hle, ?_⟩
            intro m hm hsm
            rcases List.mem_cons.mp hm with rfl | hm
            · exact keyLe_refl _
            · exact keyLe_trans (keyLe_of_keyLt hlt) (hm0min m hm hsm)
        | false =>
          constructor
          · intro hnone
            simp [seekCF, hle, hrec, hlt] at hnone
          · intro k hk
            have hk' : m0 = k := by simpa [seekCF, hle, hrec, hlt] using hk
            subst hk'
            refine ⟨List.mem_cons_of_mem a hm0mem, hm0ge, ?_⟩
            intro m hm hsm
            rcases List.mem_cons.mp hm with rfl | hm
            · exact keyLe_of_not_keyLt hlt
            · exact hm0min m hm hsm

/-! ### The delete batch and the committed write -/

theorem mem_compactBatch {rid first ci : Nat} {k : RaftKey} :
    k ∈ compactBatch rid first ci ↔
      k.1 = rid ∧ first ≤ k.2 ∧ k.2 < ci := by
  obtain ⟨a, b⟩ := k
  simp only [compactBatch, List.mem_map, List.mem_range'_1, raft_log_key,
    Prod.mk.injEq]
  constructor
  · rintro ⟨i, ⟨h1, h2⟩, rfl, rfl⟩
    exact ⟨rfl, h1, by omega⟩
  · rintro ⟨rfl, h1, h2⟩
    exact ⟨b, ⟨h1, by omega⟩, rfl, rfl⟩

theorem compactBatch_nodup (rid first ci : Nat) :
    (compactBatch rid first ci).Nodup := by
  refine List.Nodup.map ?_ (List.nodup_range' first (ci - first))
  intro x y hxy
  simp only [raft_log_key, Prod.mk.injEq, true_and] at hxy
  exact hxy

theorem compactBatch_length (rid first ci : Nat) :
    (compactBatch rid first ci).length = ci - first := by
  simp [compactBatch]

theorem mem_engineWrite {e : Engine} {wb : List RaftKey} {k : RaftKey} :
    k ∈ (engineWrite e wb).raftKeys ↔ k ∈ e.raftKeys ∧ k ∉ wb := by
  simp [engineWrite, List.mem_filter]

/-! ### Shape lemmas for `compact_raft_log` -/

theorem compact_raft_log_noop (e : Engine) (rid ci : Nat)
    (hs : e.faults.seekFail = false)
    (hge : ci ≤ firstRetained e rid ci) :
    compact_raft_log e rid ci = (e, Except.ok 0) := by
  simp [compact_raft_log, hs, hge]

theorem compact_raft_log_success (e : Engine) (rid ci : Nat)
    (hnf : e.faults = noFaults)
    (hlt : firstRetained e rid ci < ci) :
    compact_raft_log e rid ci =
      (engineWrite e (compactBatch rid (firstRetained e rid ci) ci),
       Except.ok (ci - firstRetained e rid ci)) := by
  have h1 : e.faults.seekFail = false := by rw [hnf]; rfl
  have h2 : e.faults.raftHandleFail = false := by rw [hnf]; rfl
  have h3 : e.faults.deleteFail = false := by rw [hnf]; rfl
  have h4 : e.faults.writeFail = false := by rw [hnf]; rfl
  simp [compact_raft_log, h1, h2, h3, h4, Nat.not_le.mpr hlt]

theorem compact_raft_log_cases (e : Engine) (rid ci : Nat) :
    (compact_raft_log e rid ci).1 = e ∨
    compact_raft_log e rid ci =
      (engineWrite e (compactBatch rid (firstRetained e rid ci) ci),
       Except.ok (ci - firstRetained e rid ci)) := by
  unfold compact_raft_log
  split
  · exact Or.inl rfl
  · split
    · exact Or.inl rfl
    · split
      · exact Or.inl rfl
      · split
        · exact Or.inl rfl
        · split
          · exact Or.inl rfl
          · exact Or.inr rfl

theorem compact_raft_log_faults (e : Engine) (rid ci : Nat) :
    (compact_raft_log e rid ci).1.faults = e.faults := by
  rcases compact_raft_log_cases e rid ci with hc | hc
  · rw [hc]
  · rw [hc]
    rfl

theorem compact_raft_log_error_unchanged (e : Engine) (rid ci : Nat)
    (err : CompactError)
    (h : (compact_raft_log e rid ci).2 = Except.error err) :
    (compact_raft_log e rid ci).1 = e := by
  rcases compact_raft_log_cases e rid ci with hc | hc
  · exact hc
  · rw [hc] at h
    simp at h

theorem compact_raft_log_writeLog (e : Engine) (rid ci : Nat) :
    (compact_raft_log e rid ci).1.writeLog = e.writeLog ∨
    ∃ wb, (compact_raft_log e rid ci).1.writeLog = e.writeLog ++ [wb] := by
  rcases compact_raft_log_cases e rid ci with hc | hc
  · exact Or.inl (by rw [hc])
  · refine Or.inr ⟨compactBatch rid (firstRetained e rid ci) ci, ?_⟩
    rw [hc]
    rfl

theorem mem_compact_raft_log_success {e : Engine} {rid ci : Nat}
    (hnf : e.faults = noFaults) (hlt : firstRetained e rid ci < ci)
    (k : RaftKey) :
    k ∈ (compact_raft_log e rid ci).1.raftKeys ↔
      k ∈ e.raftKeys ∧
      ¬(k.1 = rid ∧ firstRetained e rid ci ≤ k.2 ∧ k.2 < ci) := by
  rw [compact_raft_log_success e rid ci hnf hlt]
  simp [engineWrite, List.mem_filter, mem_compactBatch]
  intro _
  omega

/-! ### Concrete engines for the spec scenarios -/

/-- The engine of the spec scenario: region 7 holds log indices 1..9,
nothing else. -/
def engineTen : Engine :=
  { raftKeys := [(7, 1), (7, 2), (7, 3), (7, 4), (7, 5), (7, 6), (7, 7),
      (7, 8), (7, 9)],
    writeLog := [], lockCompactLog := [], faults := noFaults }

/-- An engine whose raft column family holds only region 8's key
`(8, 2)`: region 7 has no log entries, yet a seek from region 7's lower
bound finds region 8's key. -/
def engineForeign : Engine :=
  { raftKeys := [(8, 2)], writeLog := [], lockCompactLog := [],
    faults := noFaults }

/-- Region 7 holds index 1 only, region 8 holds index 2. -/
def engineMixed : Engine :=
  { raftKeys := [(7, 1), (8, 2)], writeLog := [], lockCompactLog := [],
    faults := noFaults }

/-- An engine whose `engine.write` call fails. -/
def engineWriteFails : Engine :=
  { raftKeys := [(7, 1), (7, 2)], writeLog := [], lockCompactLog := [],
    faults := { noFaults with writeFail := true } }

/-- An engine holding the single region-7 key of index 6. -/
def engineHigh : Engine :=
  { raftKeys := [(7, 6)], writeLog := [], lockCompactLog := [],
    faults := noFaults }

/-- The engine with an empty raft column family. -/
def engineEmpty : Engine :=
  { raftKeys := [], writeLog := [], lockCompactLog := [],
    faults := noFaults }

/-! ### The claims -/

/-- C1: whenever `first_retained < compact_index`, a successful
`compact_raft_log engine region_id compact_index` commits exactly one
write batch holding exactly one delete per index of
`[first_retained, compact_index)` on the raft column family, and
returns the count `compact_index - first_retained`. -/
theorem compact_raft_log_deletes_range_and_count (e : Engine)
    (rid ci : Nat) (hnf : e.faults = noFaults)
    (hlt : firstRetained e rid ci < ci) :
    (compact_raft_log e rid ci).2 =
      Except.ok (ci - firstRetained e rid ci) ∧
    (compact_raft_log e rid ci).1.writeLog =
      e.writeLog ++ [compactBatch rid (firstRetained e rid ci) ci] ∧
    (∀ idx, raft_log_key rid idx ∈
        compactBatch rid (firstRetained e rid ci) ci ↔
      firstRetained e rid ci ≤ idx ∧ idx < ci) ∧
    (compactBatch rid (firstRetained e rid ci) ci).Nodup ∧
    (compactBatch rid (firstRetained e rid ci) ci).length =
      ci - firstRetained e rid ci := by
  rw [compact_raft_log_success e rid ci hnf hlt]
  refine ⟨rfl, rfl, ?_, compactBatch_nodup rid (firstRetained e rid ci) ci,
    compactBatch_length rid (firstRetained e rid ci) ci⟩
  intro idx
  rw [mem_compactBatch]
  simp [raft_log_key]

/-- C1 witness: the spec scenario — region 7 holds indices 1..9,
compact index 5; exactly indices 1, 2, 3, 4 are deleted and the count
is 4. -/
theorem compact_raft_log_deletes_range_and_count_witness :
    engineTen.faults = noFaults ∧ firstRetained engineTen 7 5 < 5 ∧
    ((compact_raft_log engineTen 7 5).2 =
        Except.ok (5 - firstRetained engineTen 7 5) ∧
      (compact_raft_log engineTen 7 5).1.writeLog =
        engineTen.writeLog ++
          [compactBatch 7 (firstRetained engineTen 7 5) 5] ∧
      (∀ idx, raft_log_key 7 idx ∈
          compactBatch 7 (firstRetained engineTen 7 5) 5 ↔
        firstRetained engineTen 7 5 ≤ idx ∧ idx < 5) ∧
      (compactBatch 7 (firstRetained engineTen 7 5) 5).Nodup ∧
      (compactBatch 7 (firstRetained engineTen 7 5) 5).length =
        5 - firstRetained engineTen 7 5) :=
  ⟨rfl, by decide,
    compact_raft_log_deletes_range_and_count engineTen 7 5 rfl (by decide)⟩

/-- C2: `compact_raft_log` never deletes a key of index at or above
`compact_index` — under every fault configuration the keys at or above
`compact_index` are untouched — and after a successful run the region
holds no index of `[first_retained, compact_index)`. -/
theorem compact_raft_log_preserves_at_or_above (e : Engine)
    (rid ci : Nat) :
    (∀ k : RaftKey, ci ≤ raft_log_index k →
      (k ∈ (compact_raft_log e rid ci).1.raftKeys ↔ k ∈ e.raftKeys)) ∧
    (e.faults = noFaults →
      ∀ idx, firstRetained e rid ci ≤ idx → idx < ci →
        raft_log_key rid idx ∉ (compact_raft_log e rid ci).1.raftKeys) := by
  constructor
  · intro k hk
    have hk2 : ci ≤ k.2 := hk
    rcases compact_raft_log_cases e rid ci with hc | hc
    · rw [hc]
    · rw [hc]
      have hnb : k ∉ compactBatch rid (firstRetained e rid ci) ci := by
        rw [mem_compactBatch]
        rintro ⟨-, -, h⟩
        omega
      simp [mem_engineWrite, hnb]
  · intro hnf idx h1 h2
    rw [mem_compact_raft_log_success hnf (by omega) (raft_log_key rid idx)]
    rintro ⟨-, hbad⟩
    exact hbad ⟨rfl, h1, h2⟩

/-- C2 witness: on the indices 1..9 scenario with compact index 5, key
`(7, 5)` survives and key `(7, 2)` is gone. -/
theorem compact_raft_log_preserves_at_or_above_witness :
    ((7, 5) ∈ (compact_raft_log engineTen 7 5).1.raftKeys ↔
      (7, 5) ∈ engineTen.raftKeys) ∧
    raft_log_key 7 2 ∉ (compact_raft_log engineTen 7 5).1.raftKeys := by
  have h := compact_raft_log_preserves_at_or_above engineTen 7 5
  exact ⟨h.1 (7, 5) (by decide), h.2 rfl 2 (by decide) (by decide)⟩

/-- C3: when the computed first retained index is at least
`compact_index` (with the seek itself succeeding), `compact_raft_log`
returns `Ok 0` and the engine — data, write log and all — is
unchanged. -/
theorem compact_raft_log_noop_when_first_ge (e : Engine) (rid ci : Nat)
    (hs : e.faults.seekFail = false)
    (hge : ci ≤ firstRetained e rid ci) :
    compact_raft_log e rid ci = (e, Except.ok 0) :=
  compact_raft_log_noop e rid ci hs hge

/-- C3 witness: region 7 holds only index 6 and the compact index is 5. -/
theorem compact_raft_log_noop_when_first_ge_witness :
    engineHigh.faults.seekFail = false ∧
    5 ≤ firstRetained engineHigh 7 5 ∧
    compact_raft_log engineHigh 7 5 = (engineHigh, Except.ok 0) :=
  ⟨rfl, by decide,
    compact_raft_log_noop_when_first_ge engineHigh 7 5 rfl (by decide)⟩

/-- C4: `compact_raft_log` is all-or-nothing — every failing run (seek,
handle, batch-build or write failure) returns the typed error and
leaves the engine exactly as it was, and every run commits at most one
write batch. -/
theorem compact_raft_log_atomic (e : Engine) (rid ci : Nat) :
    (∀ err, (compact_raft_log e rid ci).2 = Except.error err →
      (compact_raft_log e rid ci).1 = e) ∧
    ((compact_raft_log e rid ci).1.writeLog = e.writeLog ∨
      ∃ wb, (compact_raft_log e rid ci).1.writeLog = e.writeLog ++ [wb]) :=
  ⟨fun err h => compact_raft_log_error_unchanged e rid ci err h,
    compact_raft_log_writeLog e rid ci⟩

/-- C4 witness: with a failing `engine.write` the call returns the
write error and the engine is unchanged. -/
theorem compact_raft_log_atomic_witness :
    (compact_raft_log engineWriteFails 7 5).2 =
      Except.error CompactError.write ∧
    (compact_raft_log engineWriteFails 7 5).1 = engineWriteFails :=
  ⟨rfl, (compact_raft_log_atomic engineWriteFails 7 5).1
    CompactError.write rfl⟩

/-- C5 counterexample: region 7 has no log entries at all, yet because
the raft column family holds region 8's key `(8, 2)`, the unbounded
seek finds it, and `compact_raft_log` returns `Ok 3` and commits a
write batch of three deletes — not the claimed count 0 with no engine
write. -/
theorem compact_raft_log_empty_region_cex :
    engineForeign.raftKeys = [(8, 2)] ∧
    (compact_raft_log engineForeign 7 5).2 = Except.ok 3 ∧
    (compact_raft_log engineForeign 7 5).1.writeLog =
      [[(7, 2), (7, 3), (7, 4)]] :=
  ⟨rfl, rfl, rfl⟩

/-- C5 amended: when the seek from `raft_log_key(region_id, 0)` finds
no key at all — in particular when the raft column family is empty —
the fallback `first_retained = compact_index` applies and the call
returns `Ok 0` with no engine write. -/
theorem compact_raft_log_seek_none_noop (e : Engine) (rid ci : Nat)
    (hs : e.faults.seekFail = false)
    (hnone : seekCF e.raftKeys (raft_log_key rid 0) = none) :
    firstRetained e rid ci = ci ∧
    compact_raft_log e rid ci = (e, Except.ok 0) := by
  have hf : firstRetained e rid ci = ci := by
    simp [firstRetained, hnone]
  exact ⟨hf, compact_raft_log_noop e rid ci hs (le_of_eq hf.symm)⟩

/-- C5-amended witness: the empty engine at region 7 and compact
index 5. -/
theorem compact_raft_log_seek_none_noop_witness :
    engineEmpty.faults.seekFail = false ∧
    seekCF engineEmpty.raftKeys (raft_log_key 7 0) = none ∧
    (firstRetained engineEmpty 7 5 = 5 ∧
      compact_raft_log engineEmpty 7 5 = (engineEmpty, Except.ok 0)) :=
  ⟨rfl, rfl, compact_raft_log_seek_none_noop engineEmpty 7 5 rfl rfl⟩

/-- C6: the seek is unbounded over the raft column family — when it
finds a key of a different region, that foreign key's decoded index
becomes `first_retained` (the no-entries fallback is not taken), and
when that index is below `compact_index` the call even reports
`compact_index - foreign_index` deletions. -/
theorem compact_raft_log_unbounded_seek_foreign (e : Engine)
    (rid ci : Nat) (k : RaftKey) (hnf : e.faults = noFaults)
    (hseek : seekCF e.raftKeys (raft_log_key rid 0) = some k)
    (_hforeign : k.1 ≠ rid) (hlt : raft_log_index k < ci) :
    firstRetained e rid ci = raft_log_index k ∧
    (compact_raft_log e rid ci).2 =
      Except.ok (ci - raft_log_index k) := by
  have hf : firstRetained e rid ci = raft_log_index k := by
    simp [firstRetained, hseek]
  refine ⟨hf, ?_⟩
  have hlt' : firstRetained e rid ci < ci := by rw [hf]; exact hlt
  rw [compact_raft_log_success e rid ci hnf hlt', hf]

/-- C6 witness: the engine holding only region 8's key `(8, 2)`,
compacted for region 7 with compact index 5. -/
theorem compact_raft_log_unbounded_seek_foreign_witness :
    engineForeign.faults = noFaults ∧
    seekCF engineForeign.raftKeys (raft_log_key 7 0) = some (8, 2) ∧
    (8, 2).1 ≠ 7 ∧ raft_log_index (8, 2) < 5 ∧
    (firstRetained engineForeign 7 5 = raft_log_index (8, 2) ∧
      (compact_raft_log engineForeign 7 5).2 =
        Except.ok (5 - raft_log_index (8, 2))) :=
  ⟨rfl, rfl, by decide, by decide,
    compact_raft_log_unbounded_seek_foreign engineForeign 7 5 (8, 2)
      rfl rfl (by decide) (by decide)⟩

/-- C7 counterexample: on the engine holding region 7's index 1 and
region 8's index 2, the first `compact_raft_log` call for region 7
with compact index 5 succeeds with `Ok 4`, but the second identical
call returns `Ok 3` — not `Ok 0` — and modifies the engine again. -/
theorem compact_raft_log_idempotence_cex :
    (compact_raft_log engineMixed 7 5).2 = Except.ok 4 ∧
    (compact_raft_log (compact_raft_log engineMixed 7 5).1 7 5).2 =
      Except.ok 3 ∧
    (compact_raft_log (compact_raft_log engineMixed 7 5).1 7 5).1 ≠
      (compact_raft_log engineMixed 7 5).1 :=
  ⟨rfl, rfl, by decide⟩

/-- C7 amended: on an engine whose raft column family holds only
`region_id`'s own keys, a second `compact_raft_log` call with the same
`compact_index` (the first having succeeded fault-free) returns `Ok 0`
and leaves the engine unchanged. -/
theorem compact_raft_log_idempotent_single_region (e : Engine)
    (rid ci : Nat) (hnf : e.faults = noFaults)
    (hsingle : ∀ k ∈ e.raftKeys, k.1 = rid) :
    compact_raft_log (compact_raft_log e rid ci).1 rid ci =
      ((compact_raft_log e rid ci).1, Except.ok 0) := by
  have hs : e.faults.seekFail = false := by rw [hnf]; rfl
  by_cases hge : ci ≤ firstRetained e rid ci
  · rw [compact_raft_log_noop e rid ci hs hge]
    exact compact_raft_log_noop e rid ci hs hge
  · have hlt : firstRetained e rid ci < ci := by omega
    have hf' : (compact_raft_log e rid ci).1.faults = noFaults := by
      rw [compact_raft_log_faults, hnf]
    have hkeys : ∀ k ∈ (compact_raft_log e rid ci).1.raftKeys, ci ≤ k.2 := by
      intro k hk
      rw [mem_compact_raft_log_success hnf hlt k] at hk
      obtain ⟨hke, hnb⟩ := hk
      have hk1 : k.1 = rid := hsingle k hke
      cases hseek : seekCF e.raftKeys (raft_log_key rid 0) with
      | none =>
        have : firstRetained e rid ci = ci := by
          simp [firstRetained, hseek]
        omega
      | some m =>
        obtain ⟨hmmem, -, hmmin⟩ :=
          (seekCF_spec e.raftKeys (raft_log_key rid 0)).2 m hseek
        have hm1 : m.1 = rid := hsingle m hmmem
        have hmk : keyLe m k = true :=
          hmmin k hke (keyLe_log_zero hk1)
        have hle2 : m.2 ≤ k.2 := keyLe_index_le hmk (by rw [hm1, hk1])
        have hfr : firstRetained e rid ci = m.2 := by
          simp [firstRetained, hseek, raft_log_index]
        by_contra hci
        exact hnb ⟨hk1, by omega, by omega⟩
    have hge' : ci ≤ firstRetained (compact_raft_log e rid ci).1 rid ci := by
      cases hseek2 : seekCF (compact_raft_log e rid ci).1.raftKeys
          (raft_log_key rid 0) with
      | none => simp [firstRetained, hseek2]
      | some k2 =>
        have hmem2 :=
          ((seekCF_spec (compact_raft_log e rid ci).1.raftKeys
            (raft_log_key rid 0)).2 k2 hseek2).1
        have : ci ≤ k2.2 := hkeys k2 hmem2
        simpa [firstRetained, hseek2, raft_log_index] using this
    exact compact_raft_log_noop (compact_raft_log e rid ci).1 rid ci
      (by rw [hf']; rfl) hge'

/-- C7-amended witness: the single-region indices 1..9 engine — the
second call after a successful compaction to index 5 is a no-op. -/
theorem compact_raft_log_idempotent_single_region_witness :
    engineTen.faults = noFaults ∧
    (∀ k ∈ engineTen.raftKeys, k.1 = 7) ∧
    compact_raft_log (compact_raft_log engineTen 7 5).1 7 5 =
      ((compact_raft_log engineTen 7 5).1, Except.ok 0) :=
  ⟨rfl, by decide,
    compact_raft_log_idempotent_single_region engineTen 7 5 rfl (by decide)⟩

/-- C8: `run` pattern-matches on the task variant and invokes the
corresponding operation exactly once, returning normally with that
operation's engine state whatever the outcome; its return type carries
no error, so failures are dropped (logged), never propagated or
retried. -/
theorem run_dispatches_and_drops_errors (e : Engine) (rid ci : Nat)
    (s k : List Nat) :
    run e (Task.CompactRaftLog rid ci) = (compact_raft_log e rid ci).1 ∧
    run e (Task.CompactLockCF s k) = (compact_lock_cf e s k).1 :=
  ⟨rfl, rfl⟩

/-- C9: `compact_lock_cf` resolves the lock column family handle and
issues exactly one range-compaction request to the engine with the
keys passed through unchanged — empty keys included, reaching the
engine verbatim as the full-keyspace sentinel — and returns unit. -/
theorem compact_lock_cf_forwards_range (e : Engine) (s k : List Nat)
    (h : e.faults.lockHandleFail = false) :
    compact_lock_cf e s k =
      ({ e with lockCompactLog := e.lockCompactLog ++ [(s, k)] },
        Except.ok ()) := by
  simp [compact_lock_cf, compact_range_cf, h]

/-- C9 witness: the empty-range task — the engine receives the request
`([], [])` on the lock column family. -/
theorem compact_lock_cf_forwards_range_witness :
    engineEmpty.faults.lockHandleFail = false ∧
    compact_lock_cf engineEmpty [] [] =
      ({ engineEmpty with
          lockCompactLog := engineEmpty.lockCompactLog ++ [([], [])] },
        Except.ok ()) :=
  ⟨rfl, compact_lock_cf_forwards_range engineEmpty [] [] rfl⟩

/-- C10: the only failure of `compact_lock_cf` is the lock
column-family handle lookup — whenever the handle resolves, the
function returns `Ok ()` unconditionally (the engine's range-compaction
call returns nothing that could fail). -/
theorem compact_lock_cf_fails_only_on_handle (e : Engine)
    (s k : List Nat) :
    (compact_lock_cf e s k).2 =
      (if e.faults.lockHandleFail then Except.error CompactError.handle
       else Except.ok ()) := by
  cases h : e.faults.lockHandleFail <;> simp [compact_lock_cf, h]

end Compact
